import Mathlib

/-!
Verification of `torch/fx/passes/infra/pass_manager.py`.

Passes are compared by Python object identity only, so a pass is modelled
as an identifier (`Nat`); the behaviour of a pass is supplied separately
as an environment mapping identifiers to functions (see `ExecEnv`).
Python dictionaries keyed on passes are modelled as total functions with
the dictionary's initial value as default; every access in the source is
at a key in `passes`, so the models agree.  Python integers are `Int`
where the source can decrement (`indegree_map`), and `Nat` for indices.
-/

namespace PassManagerPy

abbrev Pass := Nat
abbrev Constraint := Pass → Pass → Bool

/-- Pointwise update of a function-modelled dictionary. -/
def upd {α : Type} (f : Nat → α) (k : Nat) (v : α) : Nat → α :=
  fun x => if x = k then v else f x

/-- `PassResult(module, modified)` from `pass_base.py`: the pair returned by
every pass and by `PassManager.__call__`. -/
structure PassResult (M : Type) where
  graph_module : M
  modified : Bool
deriving DecidableEq, Repr

/-- State of `topological_sort_passes` (lines 69-152): the user graph, the
in-degree map, the FIFO `candidates` queue (head = next `get`), the
`visited` map, the `sorted_passes` accumulator and the
`circular_dependency` flag. -/
structure TopoState where
  graph : Pass → List Pass
  indeg : Pass → Int
  queue : List Pass
  visited : Pass → Bool
  sorted : List Pass
  circular : Bool

/-- Inner loop of the graph construction (lines 94-97): for the ordered pair
`(a, b)` every constraint with `constraint(a, b)` false appends `a` to
`graph[b]` and increments `indegree_map[a]`. -/
def addEdgesFor (constraints : List Constraint) (a b : Pass) (st : TopoState) :
    TopoState :=
  constraints.foldl
    (fun st c =>
      if c a b then st
      else { st with
              graph := upd st.graph b (st.graph b ++ [a]),
              indeg := upd st.indeg a (st.indeg a + 1) })
    st

/-- Body of the outer construction loop (lines 89-100): process every pair
`(a, b)` with `b ≠ a`, then enqueue `a` when its in-degree is zero. -/
def buildOne (passes : List Pass) (constraints : List Constraint)
    (st : TopoState) (a : Pass) : TopoState :=
  let st := passes.foldl
    (fun st b => if a = b then st else addEdgesFor constraints a b st) st
  if st.indeg a = 0 then { st with queue := st.queue ++ [a] } else st

/-- Graph construction phase of `topological_sort_passes` (lines 86-100),
starting from empty graph, zero in-degrees, empty queue, nothing visited. -/
def buildGraph (passes : List Pass) (constraints : List Constraint) : TopoState :=
  passes.foldl (buildOne passes constraints)
    { graph := fun _ => []
      indeg := fun _ => 0
      queue := []
      visited := fun _ => false
      sorted := []
      circular := false }

/-- The scan of `break_cycles` (lines 118-130): fold Python's
`min_degree`/`min_degree_pass` pair over `passes`, skipping visited nodes,
with `-1` as the "unset" sentinel and a strict `>` comparison (so ties keep
the earliest pass in original list order). -/
def findMinDegree (passes : List Pass) (visited : Pass → Bool)
    (indeg : Pass → Int) : Int × Option Pass :=
  passes.foldl
    (fun md p =>
      if visited p then md
      else if md.1 = -1 then (indeg p, some p)
      else if md.1 > indeg p then (indeg p, some p)
      else md)
    (-1, none)

/-- `break_cycles` (lines 106-135): when the queue is empty and an unvisited
pass remains, pick the minimum-in-degree unvisited pass, record the cycle,
enqueue it and force its in-degree to zero.  The source's
`if min_degree_pass:` is truthiness on a callable, i.e. a not-`None` test,
modelled by the `Option` match.  The `assert indegree_map[p] == 0` on
visited nodes (line 122) is a loop-invariant check that cannot fire and is
modelled as a no-op. -/
def break_cycles (passes : List Pass) (st : TopoState) : TopoState :=
  if st.queue.isEmpty then
    match (findMinDegree passes st.visited st.indeg).2 with
    | some p =>
        { st with
            circular := true
            queue := st.queue ++ [p]
            indeg := upd st.indeg p 0 }
    | none => st
  else st

/-- The `for n in graph[p]` body (lines 144-148): decrement the in-degree of
each unvisited user and enqueue it when the in-degree reaches zero. -/
def visitUsers (st : TopoState) (users : List Pass) : TopoState :=
  users.foldl
    (fun st n =>
      if st.visited n then st
      else
        let st := { st with indeg := upd st.indeg n (st.indeg n - 1) }
        if st.indeg n = 0 then { st with queue := st.queue ++ [n] } else st)
    st

/-- One iteration of the drain loop (lines 140-148): dequeue `p`, append it
to `sorted_passes`, mark it visited, then process its users. -/
def drainStep (st : TopoState) (p : Pass) (rest : List Pass) : TopoState :=
  let st := { st with
                queue := rest
                sorted := st.sorted ++ [p]
                visited := upd st.visited p true }
  visitUsers st (st.graph p)

/-- The `while not candidates.empty()` loop (lines 139-150), each iteration
followed by `break_cycles()`.  The loop visits one pass per iteration, so
`passes.length + 1` fuel (supplied by the caller) is never exhausted; the
fuel-0 branch is unreachable from the initial state. -/
def drain (passes : List Pass) : Nat → TopoState → TopoState
  | 0, st => st
  | fuel + 1, st =>
    match st.queue with
    | [] => st
    | p :: rest => drain passes fuel (break_cycles passes (drainStep st p rest))

/-- `topological_sort_passes(passes, constraints)` (lines 69-152): with no
constraints return the input unchanged and no cycle; otherwise build the
graph, run `break_cycles` once, drain the queue and return
`(sorted_passes, circular_dependency)`. -/
def topological_sort_passes (passes : List Pass)
    (constraints : List Constraint) : List Pass × Bool :=
  if constraints.length = 0 then (passes, false)
  else
    let st := break_cycles passes (buildGraph passes constraints)
    let st := drain passes (passes.length + 1) st
    (st.sorted, st.circular)

/-- `this_before_that_pass_constraint(this, that)` (lines 155-182): the
returned `depends_on(a, b)` is false exactly when `(a, b) = (that, this)`. -/
def this_before_that_pass_constraint (this that : Pass) : Constraint :=
  fun a b => if a = that ∧ b = this then false else true

/-- The error taxonomy: `RuntimeError` raised by `solve_constraints`
(line 264), `RuntimeError` raised by `_validate_pass_schedule_constraint`
(lines 63-67, carrying the interpolated `a`, `b`, `i`, `j`), and a failure
signalled by the check hook. -/
inductive PMError where
  | circularDependency
  | scheduleViolation (a b : Pass) (i j : Nat)
  | checkFailure
deriving DecidableEq, Repr

/-- Inner loop of `_validate_pass_schedule_constraint` (lines 60-67):
`for j, b in enumerate(passes[i + 1:])`.  `j` counts from 0 within the
slice, exactly as in the source. -/
def vpscInner (c : Constraint) (a : Pass) (i : Nat) :
    List Pass → Nat → Except PMError Unit
  | [], _ => .ok ()
  | b :: bs, j =>
    if c a b then vpscInner c a i bs (j + 1)
    else .error (.scheduleViolation a b i j)

/-- Outer loop of `_validate_pass_schedule_constraint` (lines 59-67):
`for i, a in enumerate(passes)`, checking `a` against the tail slice. -/
def vpscOuter (c : Constraint) : List Pass → Nat → Except PMError Unit
  | [], _ => .ok ()
  | a :: rest, i =>
    match vpscInner c a i rest 0 with
    | .ok _ => vpscOuter c rest (i + 1)
    | .error e => .error e

/-- `_validate_pass_schedule_constraint(constraint, passes)` (lines 56-67). -/
def validate_pass_schedule_constraint (c : Constraint) (passes : List Pass) :
    Except PMError Unit :=
  vpscOuter c passes 0

/-- A single `PassManager` instance's state under value semantics: the
fields read and written by `solve_constraints`, `validate_constraints` and
`__call__`.  `validated` models `_validated`. -/
structure PassManager where
  passes : List Pass
  constraints : List Constraint
  validated : Bool
  steps : Nat
  run_checks_after_each_pass : Bool
  suppress_check_failures : Bool

/-- `PassManager.solve_constraints` (lines 253-266): `self.passes` is
assigned the sorted result first; then, if a cycle was detected and
`steps == 1`, the `RuntimeError` is raised (with `self._validated`
untouched); otherwise `self._validated = True`.  Returns the updated
manager together with the outcome. -/
def solve_constraints (pm : PassManager) : PassManager × Except PMError Unit :=
  let r := topological_sort_passes pm.passes pm.constraints
  let pm := { pm with passes := r.1 }
  if r.2 = true ∧ pm.steps = 1 then (pm, .error .circularDependency)
  else ({ pm with validated := true }, .ok ())

/-- The `for constraint in self.constraints` loop of `validate_constraints`
(lines 249-250): the first violation propagates. -/
def validateAll (constraints : List Constraint) (passes : List Pass) :
    Except PMError Unit :=
  match constraints with
  | [] => .ok ()
  | c :: cs =>
    match validate_pass_schedule_constraint c passes with
    | .ok _ => validateAll cs passes
    | .error e => .error e

/-- `PassManager.validate_constraints` (lines 242-251): return immediately
when `_validated` is already true; otherwise check every constraint and set
`_validated` on success.  The pass list is never modified. -/
def validate_constraints (pm : PassManager) : PassManager × Except PMError Unit :=
  if pm.validated then (pm, .ok ())
  else
    match validateAll pm.constraints pm.passes with
    | .ok _ => ({ pm with validated := true }, .ok ())
    | .error e => (pm, .error e)

/-- The collaborators of `__call__`: pass behaviours keyed by pass identity,
the check hook (`true` = returns normally, `false` = raises a check
failure), and the module's refresh step — `module.recompile()` when the
module is an `fx.GraphModule` (line 313-314), instantiated as the identity
for modules without the capability. -/
structure ExecEnv (M : Type) where
  impl : Pass → M → PassResult M
  check : M → Bool
  recompile : M → M

/-- Observable events of one `__call__`: each pass invocation with the
module it received, and each check-hook invocation with its argument. -/
inductive Event (M : Type) where
  | passInv (p : Pass) (input : M)
  | checkInv (m : M)
deriving DecidableEq, Repr

/-- The pass identifiers invoked, in order, as recorded in a trace. -/
def passEvents {M : Type} (tr : List (Event M)) : List Pass :=
  tr.filterMap fun e =>
    match e with
    | .passInv p _ => some p
    | .checkInv _ => none

/-- The `for fn in self.passes` loop of `__call__` (lines 307-318): invoke
the pass, take its module, OR its modified flag, refresh the module, and
when `run_checks_after_each_pass` is set run the check hook (a failure
aborts).  Also accumulates the event trace. -/
def run_passes {M : Type} (env : ExecEnv M) (rcape : Bool) :
    List Pass → M → Bool → List (Event M) →
    List (Event M) × Except PMError (M × Bool)
  | [], m, modified, tr => (tr, .ok (m, modified))
  | p :: ps, m, modified, tr =>
    let tr := tr ++ [Event.passInv p m]
    let res := env.impl p m
    let m := env.recompile res.graph_module
    let modified := modified || res.modified
    if rcape then
      let tr := tr ++ [Event.checkInv m]
      if env.check m then run_passes env rcape ps m modified tr
      else (tr, .error .checkFailure)
    else run_passes env rcape ps m modified tr

/-- The `for _ in range(self.steps)` loop of `__call__` (lines 303-323):
run one step over the passes, OR the step's `modified` into
`overall_modified`, and stop early when the step made no modification. -/
def run_steps {M : Type} (env : ExecEnv M) (rcape : Bool) (passes : List Pass) :
    Nat → M → Bool → List (Event M) →
    List (Event M) × Except PMError (M × Bool)
  | 0, m, overall, tr => (tr, .ok (m, overall))
  | k + 1, m, overall, tr =>
    match run_passes env rcape passes m false tr with
    | (tr, .error e) => (tr, .error e)
    | (tr, .ok (m, modified)) =>
      let overall := overall || modified
      if modified then run_steps env rcape passes k m overall tr
      else (tr, .ok (m, overall))

/-- `PassManager.__call__(module)` (lines 284-325): solve constraints when
not yet validated (a circular-dependency error propagates with the manager
already holding the reordered pass list), run the precondition check, then
the step loop; return the updated manager, the event trace and the
outcome. -/
def pmCall {M : Type} (env : ExecEnv M) (pm : PassManager) (m : M) :
    PassManager × List (Event M) × Except PMError (PassResult M) :=
  let r := if pm.validated then (pm, Except.ok ()) else solve_constraints pm
  match r with
  | (pm, .error e) => (pm, [], .error e)
  | (pm, .ok _) =>
    let tr := [Event.checkInv m]
    if env.check m then
      match run_steps env pm.run_checks_after_each_pass pm.passes pm.steps m false tr with
      | (tr, .error e) => (pm, tr, .error e)
      | (tr, .ok (m, overall)) => (pm, tr, .ok ⟨m, overall⟩)
    else (pm, tr, .error .checkFailure)

/-- Number of ordering edges of the constraint graph of lines 89-97 that an
order violates: for each pair `(a, b)` with `a` strictly before `b` in the
order and `a ≠ b`, each constraint with `constraint(a, b)` false demands
`b` before `a` and is therefore violated. -/
def violations (constraints : List Constraint) : List Pass → Nat
  | [] => 0
  | a :: rest =>
    (rest.map fun b =>
      if a = b then 0
      else (constraints.filter fun c => !(c a b)).length).sum
      + violations constraints rest

end PassManagerPy

namespace PassManagerPy

/-! ### Small helper lemmas -/

theorem upd_same {α : Type} (f : Nat → α) (k : Nat) (v : α) : upd f k v k = v := by
  simp [upd]

theorem upd_other {α : Type} (f : Nat → α) (k x : Nat) (v : α) (h : x ≠ k) :
    upd f k v x = f x := by
  simp [upd, h]

/-! ### C4: empty constraint list -/

/-- C4.  For every (possibly empty) list of passes, with an empty constraint
list `topological_sort_passes` returns the input pass list unchanged and
reports no cycle, and `solve_constraints` on a manager with no constraints
succeeds, leaves the pass list unchanged and marks the schedule
validated. -/
theorem topo_sort_no_constraints (passes : List Pass) (pm : PassManager)
    (hc : pm.constraints = []) :
    topological_sort_passes passes [] = (passes, false) ∧
    solve_constraints pm =
      ({ pm with passes := pm.passes, validated := true }, .ok ()) := by
  constructor
  · rfl
  · simp [solve_constraints, hc, topological_sort_passes]

/-- Witness for C4 at a concrete manager with three passes, no constraints
and a step budget of 1. -/
theorem topo_sort_no_constraints_witness :
    topological_sort_passes [5, 7, 9] [] = ([5, 7, 9], false) ∧
    solve_constraints ⟨[5, 7, 9], [], false, 1, false, false⟩ =
      (⟨[5, 7, 9], [], true, 1, false, false⟩, .ok ()) := by
  have h := topo_sort_no_constraints [5, 7, 9] ⟨[5, 7, 9], [], false, 1, false, false⟩ rfl
  exact ⟨h.1, h.2⟩

/-! ### C1: circular dependency with step budget 1 -/

/-- The concrete manager of the C1 counterexample: passes `[0, 1, 2]`, a
contradictory constraint pair between 0 and 1, step budget 1. -/
def pmC1 : PassManager :=
  { passes := [0, 1, 2]
    constraints := [this_before_that_pass_constraint 0 1,
                    this_before_that_pass_constraint 1 0]
    validated := false
    steps := 1
    run_checks_after_each_pass := false
    suppress_check_failures := false }

/-- C1 counterexample.  With step budget 1 and a cycle between passes 0 and
1 (pass 2 unconstrained), `solve_constraints` raises the
circular-dependency error, but the manager's pass list has already been
replaced by the cycle-broken order `[2, 0, 1]`, so the state is *not*
unchanged on error. -/
theorem solve_constraints_mutates_on_error :
    (solve_constraints pmC1).2 = .error .circularDependency ∧
    (solve_constraints pmC1).1.passes = [2, 0, 1] ∧
    [2, 0, 1] ≠ pmC1.passes := by
  refine ⟨rfl, rfl, by decide⟩

/-- C1 as amended.  If the step budget is 1 and the topological sort
detects a cycle, `solve_constraints` fails with the circular-dependency
error and leaves the validated flag as it was (the schedule is not marked
final), but the pass list is replaced by the scheduler's best-effort order
before the failure. -/
theorem solve_constraints_cycle_budget_one (pm : PassManager)
    (hsteps : pm.steps = 1)
    (hcyc : (topological_sort_passes pm.passes pm.constraints).2 = true) :
    (solve_constraints pm).2 = .error .circularDependency ∧
    (solve_constraints pm).1.validated = pm.validated ∧
    (solve_constraints pm).1.passes =
      (topological_sort_passes pm.passes pm.constraints).1 := by
  simp [solve_constraints, hsteps, hcyc]

/-- Witness for the amended C1 at the concrete manager `pmC1`. -/
theorem solve_constraints_cycle_budget_one_witness :
    (solve_constraints pmC1).2 = .error .circularDependency ∧
    (solve_constraints pmC1).1.validated = false ∧
    (solve_constraints pmC1).1.passes =
      (topological_sort_passes pmC1.passes pmC1.constraints).1 := by
  have h := solve_constraints_cycle_budget_one pmC1 rfl rfl
  exact ⟨h.1, h.2.1, h.2.2⟩

/-! ### C10: validate_constraints short-circuits on the validated flag -/

/-- C10.  Whenever the manager's validated flag is true,
`validate_constraints` returns immediately without evaluating any
constraint and without touching the manager, even if the current order
violates a constraint. -/
theorem validate_constraints_skips_when_validated (pm : PassManager)
    (h : pm.validated = true) :
    validate_constraints pm = (pm, .ok ()) := by
  simp [validate_constraints, h]

/-- The manager obtained by `solve_constraints` from a contradictory
constraint pair on passes `[0, 1]` under step budget 2: the cycle-broken
order is accepted and the validated flag is set. -/
def pmC10 : PassManager :=
  (solve_constraints
    { passes := [0, 1]
      constraints := [this_before_that_pass_constraint 0 1,
                      this_before_that_pass_constraint 1 0]
      validated := false
      steps := 2
      run_checks_after_each_pass := false
      suppress_check_failures := false }).1

/-- Witness for C10: after `solve_constraints` accepted the cycle-broken
order under step budget 2, the validated flag is true, the installed order
`[0, 1]` actually violates the constraint `before(1, 0)` (the constraint
scan would report it), yet `validate_constraints` returns success without
checking. -/
theorem validate_constraints_skips_witness :
    pmC10.validated = true ∧
    validateAll pmC10.constraints pmC10.passes =
      .error (.scheduleViolation 0 1 0 0) ∧
    validate_constraints pmC10 = (pmC10, .ok ()) := by
  refine ⟨rfl, rfl, validate_constraints_skips_when_validated pmC10 rfl⟩


/-! ### C2: first violation and reported indices -/

theorem vpscInner_ok (c : Constraint) (a : Pass) (i : Nat) :
    ∀ (l : List Pass) (j0 : Nat), vpscInner c a i l j0 = .ok () →
      ∀ k z, l.get? k = some z → c a z = true := by
  intro l
  induction l with
  | nil => intro j0 _ k z hk; simp [List.get?] at hk
  | cons b bs ih =>
    intro j0 h k z hk
    rw [vpscInner] at h
    by_cases hc : c a b = true
    · rw [if_pos hc] at h
      match k, hk with
      | 0, hk =>
        simp [List.get?] at hk
        exact hk ▸ hc
      | Nat.succ k, hk => exact ih (j0 + 1) h k z hk
    · rw [if_neg hc] at h
      exact absurd h (by simp)

theorem vpscInner_err (c : Constraint) (a : Pass) (i : Nat) :
    ∀ (l : List Pass) (j0 : Nat) (x y : Pass) (i' j : Nat),
      vpscInner c a i l j0 = .error (.scheduleViolation x y i' j) →
      x = a ∧ i' = i ∧ ∃ d, j = j0 + d ∧ l.get? d = some y ∧ c a y = false ∧
        ∀ k z, k < d → l.get? k = some z → c a z = true := by
  intro l
  induction l with
  | nil => intro j0 x y i' j h; exact absurd h (by simp [vpscInner])
  | cons b bs ih =>
    intro j0 x y i' j h
    rw [vpscInner] at h
    by_cases hc : c a b = true
    · rw [if_pos hc] at h
      obtain ⟨hx, hi, d, hj, hget, hcy, hearlier⟩ := ih (j0 + 1) x y i' j h
      refine ⟨hx, hi, d + 1, by omega, hget, hcy, ?_⟩
      intro k z hk hkz
      match k, hkz with
      | 0, hkz =>
        simp [List.get?] at hkz
        exact hkz ▸ hc
      | Nat.succ k, hkz => exact hearlier k z (by omega) hkz
    · rw [if_neg hc] at h
      simp only [Except.error.injEq, PMError.scheduleViolation.injEq] at h
      obtain ⟨hx, hy, hi, hj⟩ := h
      subst hx; subst hy; subst hi; subst hj
      refine ⟨rfl, rfl, 0, by omega, by simp [List.get?], by simpa using hc, ?_⟩
      intro k z hk hkz
      exact absurd hk (by omega)
  

theorem vpscOuter_err (c : Constraint) :
    ∀ (l : List Pass) (i0 : Nat) (x y : Pass) (i j : Nat),
      vpscOuter c l i0 = .error (.scheduleViolation x y i j) →
      ∃ d, i = i0 + d ∧ l.get? d = some x ∧ l.get? (d + 1 + j) = some y ∧
        c x y = false ∧
        ∀ d' j' x' y', l.get? d' = some x' → l.get? (d' + 1 + j') = some y' →
          (d' < d ∨ (d' = d ∧ j' < j)) → c x' y' = true := by
  intro l
  induction l with
  | nil => intro i0 x y i j h; exact absurd h (by simp [vpscOuter])
  | cons a rest ih =>
    intro i0 x y i j h
    rw [vpscOuter] at h
    cases hinner : vpscInner c a i0 rest 0 with
    | ok u =>
      rw [hinner] at h
      replace h : vpscOuter c rest (i0 + 1) = .error (.scheduleViolation x y i j) := h
      obtain ⟨d, hi, hgx, hgy, hcxy, hearlier⟩ := ih (i0 + 1) x y i j h
      refine ⟨d + 1, by omega, by simpa using hgx, ?_, hcxy, ?_⟩
      · have heq : d + 1 + 1 + j = (d + 1 + j) + 1 := by omega
        rw [heq, List.get?_cons_succ]
        exact hgy
      · intro d' j' x' y' hx' hy' hlt
        match d', hx', hy', hlt with
        | 0, hx', hy', hlt =>
          rw [List.get?_cons_zero, Option.some.injEq] at hx'
          have hy2 : rest.get? j' = some y' := by
            have heq : (0 : Nat) + 1 + j' = j' + 1 := by omega
            rw [heq, List.get?_cons_succ] at hy'
            exact hy'
          exact hx' ▸ vpscInner_ok c a i0 rest 0 hinner j' y' hy2
        | Nat.succ d', hx', hy', hlt =>
          rw [List.get?_cons_succ] at hx'
          have hy2 : rest.get? (d' + 1 + j') = some y' := by
            have heq : d' + 1 + 1 + j' = (d' + 1 + j') + 1 := by omega
            rw [heq, List.get?_cons_succ] at hy'
            exact hy'
          exact hearlier d' j' x' y' hx' hy2 (by omega)
    | error e =>
      rw [hinner] at h
      replace h : (Except.error e : Except PMError Unit) =
          .error (.scheduleViolation x y i j) := h
      rw [Except.error.injEq] at h
      rw [h] at hinner
      obtain ⟨hx, hi, d, hj, hget, hcy, hinner_earlier⟩ :=
        vpscInner_err c a i0 rest 0 x y i j hinner
      subst hx
      refine ⟨0, by omega, List.get?_cons_zero, ?_, hcy, ?_⟩
      · have heq : (0 : Nat) + 1 + j = j + 1 := by omega
        rw [heq, List.get?_cons_succ, hj] at *
        simpa using hget
      · intro d' j' x' y' hx' hy' hlt
        rcases hlt with hlt | ⟨hd0, hjlt⟩
        · omega
        · subst hd0
          rw [List.get?_cons_zero, Option.some.injEq] at hx'
          have hy2 : rest.get? j' = some y' := by
            have heq : (0 : Nat) + 1 + j' = j' + 1 := by omega
            rw [heq, List.get?_cons_succ] at hy'
            exact hy'
          exact hx' ▸ hinner_earlier j' y' (by omega) hy2


/-- `validate_constraints` never changes the pass list, on success or on
failure. -/
theorem validate_constraints_passes (pm : PassManager) :
    (validate_constraints pm).1.passes = pm.passes := by
  rw [validate_constraints]
  by_cases h : pm.validated
  · rw [if_pos h]
  · rw [if_neg h]
    cases validateAll pm.constraints pm.passes <;> rfl

/-- C2 counterexample.  For pass list `[1, 0]` and the constraint requiring
0 before 1, the scan fails at outer index `i = 0` with `b = 0`, but the
reported `j` is `0`: it is the index of `b` within the slice
`passes[i + 1:]`, not `b`'s position in the pass list (`passes[0] = 1 ≠ 0`,
and `b` actually sits at position 1); in particular `i < j` fails. -/
theorem validate_reports_slice_index :
    validate_pass_schedule_constraint (this_before_that_pass_constraint 0 1) [1, 0]
      = .error (.scheduleViolation 1 0 0 0) ∧
    List.get? [1, 0] 0 ≠ some 0 ∧
    List.get? [1, 0] 1 = some 0 ∧
    ¬ (0 < 0) := by
  exact ⟨rfl, by decide, by decide, by decide⟩

/-- C2 as amended.  When `_validate_pass_schedule_constraint` fails it
fails on the first violation in scan order and reports the offending pair
`(a, b)` with `a`'s absolute position `i`; the reported `j` is the offset
of `b` inside the slice after `a`, so `b` sits at absolute position
`i + 1 + j` (and `j` can be ≤ `i`).  Every pair scanned earlier satisfies
the constraint.  The manager's pass list is unchanged by
`validate_constraints` in all cases. -/
theorem validate_first_violation (c : Constraint) (passes : List Pass)
    (a b : Pass) (i j : Nat)
    (h : validate_pass_schedule_constraint c passes
          = .error (.scheduleViolation a b i j)) :
    passes.get? i = some a ∧ passes.get? (i + 1 + j) = some b ∧
    c a b = false ∧
    (∀ i' j' a' b', passes.get? i' = some a' →
      passes.get? (i' + 1 + j') = some b' →
      (i' < i ∨ (i' = i ∧ j' < j)) → c a' b' = true) ∧
    (∀ pm : PassManager, (validate_constraints pm).1.passes = pm.passes) := by
  obtain ⟨d, hd, hgx, hgy, hc, hearlier⟩ :=
    vpscOuter_err c passes 0 a b i j h
  have hdi : d = i := by omega
  subst hdi
  exact ⟨hgx, hgy, hc, fun i' j' a' b' h1 h2 h3 => hearlier i' j' a' b' h1 h2 h3,
    validate_constraints_passes⟩

/-- Witness for the amended C2 at the concrete input of the
counterexample: the error `⟨1, 0, 0, 0⟩` satisfies the amended indexing. -/
theorem validate_first_violation_witness :
    List.get? [1, 0] 0 = some 1 ∧ List.get? [1, 0] (0 + 1 + 0) = some 0 ∧
    this_before_that_pass_constraint 0 1 1 0 = false := by
  have h := validate_first_violation (this_before_that_pass_constraint 0 1)
    [1, 0] 1 0 0 0 rfl
  exact ⟨h.1, h.2.1, h.2.2.1⟩


/-! ### C5: contradictory constraint pair under both budgets -/

/-- C5.  For distinct passes `A`, `B` under the contradictory constraints
`before(A, B)` and `before(B, A)`: the topological sort returns `([A, B],
cycle detected)`; with step budget 1 `solve_constraints` — and hence a
fresh top-level invocation — fails with the circular-dependency error;
with step budget ≥ 2 it succeeds, marks the schedule validated, and the
resulting order is a permutation of `[A, B]`. -/
theorem contradictory_pair_budgets (A B : Pass) (h : A ≠ B)
    (pm : PassManager) (hp : pm.passes = [A, B])
    (hc : pm.constraints = [this_before_that_pass_constraint A B,
                            this_before_that_pass_constraint B A]) :
    topological_sort_passes [A, B]
        [this_before_that_pass_constraint A B,
         this_before_that_pass_constraint B A] = ([A, B], true) ∧
    (pm.steps = 1 →
      (solve_constraints pm).2 = .error .circularDependency ∧
      (∀ (M : Type) (env : ExecEnv M) (m : M), pm.validated = false →
        (pmCall env pm m).2.2 = .error .circularDependency)) ∧
    (2 ≤ pm.steps →
      (solve_constraints pm).2 = .ok () ∧
      (solve_constraints pm).1.validated = true ∧
      (solve_constraints pm).1.passes = [A, B] ∧
      (solve_constraints pm).1.passes.Perm [A, B]) := by
  have h' : B ≠ A := h.symm
  have htopo : topological_sort_passes [A, B]
      [this_before_that_pass_constraint A B,
       this_before_that_pass_constraint B A] = ([A, B], true) := by
    norm_num [topological_sort_passes, buildGraph, buildOne, addEdgesFor,
        this_before_that_pass_constraint, break_cycles, findMinDegree,
        drain, drainStep, visitUsers, upd, h, h', List.isEmpty]
  refine ⟨htopo, ?_, ?_⟩
  · intro hs
    have hsolve : (solve_constraints pm).2 = .error .circularDependency := by
      rw [solve_constraints, hp, hc, htopo]
      simp [hs]
    refine ⟨hsolve, ?_⟩
    intro M env m hv
    rw [pmCall, hv]
    simp only [Bool.false_eq_true, if_false]
    rcases hval : solve_constraints pm with ⟨pm', r⟩
    rw [hval] at hsolve
    simp only at hsolve
    rw [hsolve]
  · intro hs
    have hcond : ¬ ((topological_sort_passes pm.passes pm.constraints).2 = true
        ∧ ({ pm with passes := (topological_sort_passes pm.passes pm.constraints).1 } : PassManager).steps = 1) := by
      rintro ⟨-, habs⟩
      simp only at habs
      omega
    rw [solve_constraints]
    rw [if_neg hcond]
    rw [hp, hc, htopo]
    exact ⟨rfl, rfl, rfl, List.Perm.refl _⟩


/-- The C5 manager with step budget 1. -/
def pmC5a : PassManager :=
  { passes := [0, 1]
    constraints := [this_before_that_pass_constraint 0 1,
                    this_before_that_pass_constraint 1 0]
    validated := false
    steps := 1
    run_checks_after_each_pass := false
    suppress_check_failures := false }

/-- The C5 manager with step budget 2. -/
def pmC5b : PassManager := { pmC5a with steps := 2 }

/-- Witness for C5 at `A = 0`, `B = 1`: budget 1 fails with the
circular-dependency error (also through the top-level invocation), budget
2 succeeds with the order `[0, 1]` and the validated flag set. -/
theorem contradictory_pair_budgets_witness :
    (solve_constraints pmC5a).2 = .error .circularDependency ∧
    (pmCall ⟨fun _ m => ⟨m, false⟩, fun _ => true, id⟩ pmC5a (0 : Nat)).2.2
      = .error .circularDependency ∧
    (solve_constraints pmC5b).2 = .ok () ∧
    (solve_constraints pmC5b).1.validated = true ∧
    (solve_constraints pmC5b).1.passes = [0, 1] := by
  have h1 := contradictory_pair_budgets 0 1 (by decide) pmC5a rfl rfl
  have h2 := contradictory_pair_budgets 0 1 (by decide) pmC5b rfl rfl
  obtain ⟨-, hb1, -⟩ := h1
  obtain ⟨-, -, hb2⟩ := h2
  obtain ⟨hs1, hcall⟩ := hb1 rfl
  obtain ⟨hs2, hv2, hp2, -⟩ := hb2 (by decide)
  exact ⟨hs1, hcall Nat ⟨fun _ m => ⟨m, false⟩, fun _ => true, id⟩ 0 rfl,
    hs2, hv2, hp2⟩

/-! ### C7: chain constraints yield the chain order from any input order -/

/-- C7.  For three distinct passes `A`, `B`, `C` with constraints
`before(A, B)` and `before(B, C)`, every input ordering of `[A, B, C]` is
sorted to exactly `[A, B, C]` with no cycle reported. -/
theorem chain_constraints_sorted (A B C : Pass)
    (hAB : A ≠ B) (hAC : A ≠ C) (hBC : B ≠ C) (input : List Pass)
    (hin : input ∈ [[A, B, C], [A, C, B], [B, A, C],
                    [B, C, A], [C, A, B], [C, B, A]]) :
    topological_sort_passes input
      [this_before_that_pass_constraint A B,
       this_before_that_pass_constraint B C] = ([A, B, C], false) := by
  have hBA : B ≠ A := hAB.symm
  have hCA : C ≠ A := hAC.symm
  have hCB : C ≠ B := hBC.symm
  simp only [List.mem_cons, List.mem_singleton, List.not_mem_nil, or_false] at hin
  rcases hin with h | h | h | h | h | h <;> subst h <;>
    norm_num [topological_sort_passes, buildGraph, buildOne, addEdgesFor,
        this_before_that_pass_constraint, break_cycles, findMinDegree,
        drain, drainStep, visitUsers, upd, hAB, hAC, hBC, hBA, hCA, hCB,
        List.isEmpty]

/-- Witness for C7 at `A = 0`, `B = 1`, `C = 2` with the reversed input
ordering `[2, 1, 0]`. -/
theorem chain_constraints_sorted_witness :
    topological_sort_passes [2, 1, 0]
      [this_before_that_pass_constraint 0 1,
       this_before_that_pass_constraint 1 2] = ([0, 1, 2], false) :=
  chain_constraints_sorted 0 1 2 (by decide) (by decide) (by decide)
    [2, 1, 0] (by simp)


/-! ### C6: fixed point stops the step loop; C8: the suppress flag is dead -/

theorem passEvents_append {M : Type} (t1 t2 : List (Event M)) :
    passEvents (t1 ++ t2) = passEvents t1 ++ passEvents t2 := by
  simp [passEvents]

theorem run_passes_nomod {M : Type} (env : ExecEnv M) (rcape : Bool)
    (hcheck : ∀ x, env.check x = true) :
    ∀ (ps : List Pass), (∀ p ∈ ps, ∀ x, (env.impl p x).modified = false) →
    ∀ (m : M) (tr : List (Event M)),
      ∃ m' tr', run_passes env rcape ps m false tr = (tr', .ok (m', false)) ∧
        passEvents tr' = passEvents tr ++ ps := by
  intro ps
  induction ps with
  | nil =>
    intro _ m tr
    exact ⟨m, tr, rfl, by simp [passEvents]⟩
  | cons p ps ih =>
    intro hmod m tr
    have hm0 : (env.impl p m).modified = false := hmod p (by simp) m
    have hmod' : ∀ q ∈ ps, ∀ x, (env.impl q x).modified = false :=
      fun q hq x => hmod q (by simp [hq]) x
    rw [run_passes]
    cases rcape with
    | false =>
      simp only [Bool.false_eq_true, if_false, hm0, Bool.or_false]
      obtain ⟨m', tr', heq, hev⟩ := ih hmod'
        (env.recompile (env.impl p m).graph_module) (tr ++ [Event.passInv p m])
      refine ⟨m', tr', heq, ?_⟩
      rw [hev, passEvents_append]
      simp [passEvents]
    | true =>
      simp only [if_true, hm0, Bool.or_false,
        hcheck (env.recompile (env.impl p m).graph_module)]
      obtain ⟨m', tr', heq, hev⟩ := ih hmod'
        (env.recompile (env.impl p m).graph_module)
        ((tr ++ [Event.passInv p m])
          ++ [Event.checkInv (env.recompile (env.impl p m).graph_module)])
      refine ⟨m', tr', heq, ?_⟩
      rw [hev, passEvents_append, passEvents_append]
      simp [passEvents]

/-- C6.  When the schedule is already validated, every check passes and
every pass always reports `modified = false`, a top-level invocation with
step budget 3 runs exactly one step: the result's overall modified flag is
false and the trace records each pass invoked exactly once, in order. -/
theorem fixed_point_single_step {M : Type} (env : ExecEnv M)
    (pm : PassManager) (m : M)
    (hval : pm.validated = true) (hsteps : pm.steps = 3)
    (hcheck : ∀ x, env.check x = true)
    (hmod : ∀ p ∈ pm.passes, ∀ x, (env.impl p x).modified = false) :
    ∃ m' tr, pmCall env pm m = (pm, tr, .ok ⟨m', false⟩) ∧
      passEvents tr = pm.passes := by
  obtain ⟨m', tr', heq, hev⟩ := run_passes_nomod env
    pm.run_checks_after_each_pass hcheck pm.passes hmod m [Event.checkInv m]
  have hsteps3 : run_steps env pm.run_checks_after_each_pass pm.passes
      pm.steps m false [Event.checkInv m] = (tr', .ok (m', false)) := by
    rw [hsteps, run_steps, heq]
    simp
  refine ⟨m', tr', ?_, by simpa [passEvents] using hev⟩
  rw [pmCall]
  simp only [hval, if_true, hcheck m, hsteps3]


theorem solve_constraints_suppress (pm : PassManager) (b : Bool) :
    solve_constraints { pm with suppress_check_failures := b } =
      ({ (solve_constraints pm).1 with suppress_check_failures := b },
       (solve_constraints pm).2) := by
  cases pm
  rw [solve_constraints, solve_constraints]
  simp only
  split <;> rfl

/-- C8.  The `suppress_check_failures` flag is stored at construction and
never consulted: a top-level invocation on a manager with the flag set to
any value `b` produces the same trace, the same outcome and the same
manager state (up to the stored flag itself) as the invocation with the
original flag. -/
theorem suppress_flag_no_effect {M : Type} (env : ExecEnv M)
    (pm : PassManager) (m : M) (b : Bool) :
    pmCall env { pm with suppress_check_failures := b } m =
      ({ (pmCall env pm m).1 with suppress_check_failures := b },
       (pmCall env pm m).2.1, (pmCall env pm m).2.2) := by
  cases pm with
  | mk ps cs v st rc sup =>
    rw [pmCall, pmCall]
    simp only
    cases v with
    | true =>
      simp only [if_true]
      cases hchk : env.check m with
      | true =>
        simp only [hchk, if_true]
        rcases hr : run_steps env rc ps st m false [Event.checkInv m] with ⟨tr, r⟩
        cases r <;> rfl
      | false => simp
    | false =>
      simp only [Bool.false_eq_true, if_false, solve_constraints]
      by_cases hcond : (topological_sort_passes ps cs).2 = true ∧ st = 1
      · simp only [if_pos hcond]
      · simp only [if_neg hcond]
        cases hchk : env.check m with
        | true =>
          simp only [hchk, if_true]
          rcases hr : run_steps env rc (topological_sort_passes ps cs).1 st m
            false [Event.checkInv m] with ⟨tr, r2⟩
          cases r2 <;> rfl
        | false => simp


/-- C6 witness environment: every pass returns its module unchanged with
`modified = false`, the check hook always passes, no refresh capability. -/
def envC6 : ExecEnv Nat := ⟨fun _ m => ⟨m, false⟩, fun _ => true, id⟩

/-- C6 witness manager: three passes, no constraints, already validated,
step budget 3. -/
def pmC6 : PassManager := ⟨[0, 1, 2], [], true, 3, false, false⟩

/-- Witness for C6: with a 3-step budget and all-no-op passes, the
invocation returns `modified = false` and the trace shows passes 0, 1, 2
each invoked exactly once. -/
theorem fixed_point_single_step_witness :
    ∃ m' tr, pmCall envC6 pmC6 0 = (pmC6, tr, .ok ⟨m', false⟩) ∧
      passEvents tr = [0, 1, 2] :=
  fixed_point_single_step envC6 pmC6 0 rfl rfl (fun _ => rfl)
    (fun _ _ _ => rfl)


/-! ### C9: class-level default lists are shared across instances -/

/-- The class-level attribute cells of `PassManager` (lines 205-206):
`passes: List[...] = []` and `constraints: List[...] = []` are single
mutable list objects stored on the class, shared by every instance that
has not been given its own instance attribute. -/
structure SharedClassState where
  classPasses : List Pass
  classConstraints : List Constraint

/-- One `PassManager` instance's attribute dictionary for the `passes` and
`constraints` attributes: `none` means the instance has no attribute of
that name, so Python attribute lookup falls through to the shared class
cell; `some l` means `__init__` bound an instance attribute (lines
218-221). -/
structure PMObj where
  ownPasses : Option (List Pass)
  ownConstraints : Option (List Constraint)

/-- `PassManager.__init__(passes, constraints, ...)` (lines 210-221)
restricted to the two list attributes: `if passes:` is truthiness, so both
`None` and an empty list leave the instance without its own attribute,
aliasing the class cell. -/
def pmInitObj (passes : Option (List Pass))
    (constraints : Option (List Constraint)) : PMObj :=
  { ownPasses :=
      match passes with
      | some l => if l.isEmpty then none else some l
      | none => none
    ownConstraints :=
      match constraints with
      | some l => if l.isEmpty then none else some l
      | none => none }

/-- Attribute lookup `self.passes`: the instance attribute when present,
otherwise the shared class cell. -/
def getPassesObj (s : SharedClassState) (o : PMObj) : List Pass :=
  o.ownPasses.getD s.classPasses

/-- Attribute lookup `self.constraints`. -/
def getConstraintsObj (s : SharedClassState) (o : PMObj) : List Constraint :=
  o.ownConstraints.getD s.classConstraints

/-- `PassManager.add_pass` (lines 228-233): `self.passes.append(_pass)`
mutates whichever list object attribute lookup found — the shared class
cell when the instance has no own attribute. -/
def addPassObj (s : SharedClassState) (o : PMObj) (p : Pass) :
    SharedClassState × PMObj :=
  match o.ownPasses with
  | none => ({ s with classPasses := s.classPasses ++ [p] }, o)
  | some l => (s, { o with ownPasses := some (l ++ [p]) })

/-- `PassManager.add_constraint` (lines 235-240). -/
def addConstraintObj (s : SharedClassState) (o : PMObj) (c : Constraint) :
    SharedClassState × PMObj :=
  match o.ownConstraints with
  | none => ({ s with classConstraints := s.classConstraints ++ [c] }, o)
  | some l => (s, { o with ownConstraints := some (l ++ [c]) })

/-- C9.  Two managers both constructed without a `passes` (resp.
`constraints`) argument share the class-level list: after `add_pass` (resp.
`add_constraint`) through the first instance, the element is visible in the
second instance's pass (resp. constraint) list. -/
theorem default_lists_shared_across_instances (s : SharedClassState)
    (p : Pass) (c : Constraint) :
    getPassesObj (addPassObj s (pmInitObj none none) p).1 (pmInitObj none none)
      = getPassesObj s (pmInitObj none none) ++ [p] ∧
    getConstraintsObj (addConstraintObj s (pmInitObj none none) c).1
        (pmInitObj none none)
      = getConstraintsObj s (pmInitObj none none) ++ [c] := by
  exact ⟨rfl, rfl⟩


/-! ### C3: termination and totality of the sort; non-minimality of the
cycle-breaking heuristic -/

/-- The C3 counterexample constraint set on passes `0, 1, 2, 3`: mutual
constraints among `0, 1, 2` (every relative order of any two of them
violates one edge) plus `before(0, 3)`. -/
def csC3 : List Constraint :=
  [this_before_that_pass_constraint 0 1, this_before_that_pass_constraint 1 0,
   this_before_that_pass_constraint 0 2, this_before_that_pass_constraint 2 0,
   this_before_that_pass_constraint 1 2, this_before_that_pass_constraint 2 1,
   this_before_that_pass_constraint 0 3]

theorem cycle_break_not_minimal :
    topological_sort_passes [0, 1, 2, 3] csC3 = ([3, 0, 1, 2], true) ∧
    violations csC3 [3, 0, 1, 2] = 4 ∧
    violations csC3 [0, 1, 2, 3] = 3 ∧
    (3 : Nat) < 4 := by
  exact ⟨rfl, by decide, by decide, by decide⟩


theorem visitUsers_fields (users : List Pass) : ∀ (st : TopoState),
    (visitUsers st users).graph = st.graph ∧
    (visitUsers st users).visited = st.visited ∧
    (visitUsers st users).sorted = st.sorted := by
  induction users with
  | nil => intro st; exact ⟨rfl, rfl, rfl⟩
  | cons n ns ih =>
    intro st
    rw [visitUsers]
    simp only [List.foldl_cons]
    by_cases hv : st.visited n = true
    · rw [if_pos hv]
      exact ih st
    · rw [if_neg hv]
      by_cases hz : upd st.indeg n (st.indeg n - 1) n = 0
      · rw [if_pos hz]
        exact ih _
      · rw [if_neg hz]
        exact ih _

theorem break_cycles_fields (passes : List Pass) (st : TopoState) :
    (break_cycles passes st).graph = st.graph ∧
    (break_cycles passes st).visited = st.visited ∧
    (break_cycles passes st).sorted = st.sorted := by
  rw [break_cycles]
  by_cases he : st.queue.isEmpty
  · rw [if_pos he]
    cases (findMinDegree passes st.visited st.indeg).2 <;> exact ⟨rfl, rfl, rfl⟩
  · rw [if_neg he]
    exact ⟨rfl, rfl, rfl⟩

theorem findMinDegree_go (visited : Pass → Bool) (indeg : Pass → Int) :
    ∀ (l : List Pass) (md : Int × Option Pass)
      (hmd : ∀ q, md.2 = some q → visited q = false)
      (hmd0 : md.2 = none → md.1 = -1),
      (∀ q, (l.foldl (fun md p =>
          if visited p then md
          else if md.1 = -1 then (indeg p, some p)
          else if md.1 > indeg p then (indeg p, some p)
          else md) md).2 = some q → visited q = false ∧ (md.2 = some q ∨ q ∈ l)) ∧
      ((l.foldl (fun md p =>
          if visited p then md
          else if md.1 = -1 then (indeg p, some p)
          else if md.1 > indeg p then (indeg p, some p)
          else md) md).2 = none → md.2 = none ∧ ∀ p ∈ l, visited p = true) := by
  intro l
  induction l with
  | nil =>
    intro md hmd hmd0
    exact ⟨fun q h => ⟨hmd q h, Or.inl h⟩, fun h => ⟨h, by simp⟩⟩
  | cons p ps ih =>
    intro md hmd hmd0
    simp only [List.foldl_cons]
    by_cases hv : visited p = true
    · rw [if_pos hv]
      obtain ⟨h1, h2⟩ := ih md hmd hmd0
      refine ⟨fun q hq => ?_, fun hq => ?_⟩
      · obtain ⟨ha, hb⟩ := h1 q hq
        exact ⟨ha, hb.imp id (by simp [·])⟩
      · obtain ⟨ha, hb⟩ := h2 hq
        refine ⟨ha, ?_⟩
        intro x hx
        rcases List.mem_cons.1 hx with h | h
        · exact h ▸ hv
        · exact hb x h
    · rw [if_neg hv]
      have step : ∀ (md' : Int × Option Pass), md'.2 = some p →
          (∀ q, (ps.foldl (fun md p =>
              if visited p then md
              else if md.1 = -1 then (indeg p, some p)
              else if md.1 > indeg p then (indeg p, some p)
              else md) md').2 = some q → visited q = false ∧ (md.2 = some q ∨ q ∈ p :: ps)) ∧
          ((ps.foldl (fun md p =>
              if visited p then md
              else if md.1 = -1 then (indeg p, some p)
              else if md.1 > indeg p then (indeg p, some p)
              else md) md').2 = none → md.2 = none ∧ ∀ x ∈ p :: ps, visited x = true) := by
        intro md' hmd'
        have hmd'' : ∀ q, md'.2 = some q → visited q = false := by
          intro q hq
          rw [hmd'] at hq
          cases hq
          exact Bool.not_eq_true _ ▸ (by simpa using hv)
        obtain ⟨h1, h2⟩ := ih md' hmd'' (fun h => by rw [hmd'] at h; cases h)
        refine ⟨fun q hq => ?_, fun hq => ?_⟩
        · obtain ⟨ha, hb⟩ := h1 q hq
          refine ⟨ha, Or.inr ?_⟩
          rcases hb with hb | hb
          · rw [hmd'] at hb
            cases hb
            simp
          · simp [hb]
        · obtain ⟨ha, -⟩ := h2 hq
          rw [hmd'] at ha
          cases ha
      by_cases h1 : md.1 = -1
      · rw [if_pos h1]
        exact step (indeg p, some p) rfl
      · rw [if_neg h1]
        by_cases h2 : md.1 > indeg p
        · rw [if_pos h2]
          exact step (indeg p, some p) rfl
        · rw [if_neg h2]
          obtain ⟨ha, hb⟩ := ih md hmd hmd0
          refine ⟨fun q hq => ?_, fun hq => ?_⟩
          · obtain ⟨hx, hy⟩ := ha q hq
            exact ⟨hx, hy.imp id (by simp [·])⟩
          · obtain ⟨hx, -⟩ := hb hq
            exact absurd (hmd0 hx) h1


theorem findMinDegree_some (passes : List Pass) (visited : Pass → Bool)
    (indeg : Pass → Int) (p : Pass)
    (h : (findMinDegree passes visited indeg).2 = some p) :
    visited p = false ∧ p ∈ passes := by
  rw [findMinDegree] at h
  obtain ⟨h1, -⟩ := findMinDegree_go visited indeg passes (-1, none)
    (fun q hq => by cases hq) (fun _ => rfl)
  obtain ⟨ha, hb⟩ := h1 p h
  rcases hb with hb | hb
  · cases hb
  · exact ⟨ha, hb⟩

theorem findMinDegree_none (passes : List Pass) (visited : Pass → Bool)
    (indeg : Pass → Int)
    (h : (findMinDegree passes visited indeg).2 = none) :
    ∀ p ∈ passes, visited p = true := by
  rw [findMinDegree] at h
  obtain ⟨-, h2⟩ := findMinDegree_go visited indeg passes (-1, none)
    (fun q hq => by cases hq) (fun _ => rfl)
  exact (h2 h).2

/-- Invariant maintained by the drain loop of `topological_sort_passes`:
every user recorded in the graph is a pass; queue members are passes, are
unvisited, have non-positive in-degree and are pairwise distinct; the
sorted output lists exactly the visited passes, without duplicates. -/
structure TopoInv (passes : List Pass) (st : TopoState) : Prop where
  graph_sub : ∀ p n, n ∈ st.graph p → n ∈ passes
  queue_mem : ∀ q ∈ st.queue, q ∈ passes
  queue_unvisited : ∀ q ∈ st.queue, st.visited q = false
  queue_indeg : ∀ q ∈ st.queue, st.indeg q ≤ 0
  queue_nodup : st.queue.Nodup
  sorted_nodup : st.sorted.Nodup
  sorted_iff : ∀ p, p ∈ st.sorted ↔ (st.visited p = true ∧ p ∈ passes)

theorem break_cycles_inv (passes : List Pass) (st : TopoState)
    (h : TopoInv passes st) : TopoInv passes (break_cycles passes st) := by
  rw [break_cycles]
  by_cases he : st.queue.isEmpty
  · rw [if_pos he]
    cases hf : (findMinDegree passes st.visited st.indeg).2 with
    | none => exact h
    | some p =>
      obtain ⟨hpu, hpm⟩ := findMinDegree_some passes st.visited st.indeg p hf
      have hq : st.queue = [] := List.isEmpty_iff.1 he
      refine ⟨h.graph_sub, ?_, ?_, ?_, ?_, h.sorted_nodup, h.sorted_iff⟩
      · intro q hqq
        rw [hq] at hqq
        simp at hqq
        exact hqq ▸ hpm
      · intro q hqq
        rw [hq] at hqq
        simp at hqq
        exact hqq ▸ hpu
      · intro q hqq
        rw [hq] at hqq
        simp at hqq
        subst hqq
        simp [upd_same]
      · rw [hq]
        simp
  · rw [if_neg he]
    exact h

theorem break_cycles_post (passes : List Pass) (st : TopoState)
    (hdone : (break_cycles passes st).queue = []) :
    ∀ p ∈ passes, (break_cycles passes st).visited p = true := by
  rw [break_cycles] at hdone ⊢
  by_cases he : st.queue.isEmpty
  · rw [if_pos he] at hdone ⊢
    cases hf : (findMinDegree passes st.visited st.indeg).2 with
    | none => exact findMinDegree_none passes st.visited st.indeg hf
    | some p =>
      rw [hf] at hdone
      simp at hdone
  · rw [if_neg he] at hdone
    exact absurd (List.isEmpty_iff.2 hdone) he


theorem visitUsers_inv (passes : List Pass) : ∀ (users : List Pass) (st : TopoState),
    (∀ n ∈ users, n ∈ passes) → TopoInv passes st →
    TopoInv passes (visitUsers st users) := by
  intro users
  induction users with
  | nil => intro st _ h; exact h
  | cons n ns ih =>
    intro st hsub h
    have hn : n ∈ passes := hsub n (by simp)
    have hsub' : ∀ x ∈ ns, x ∈ passes := fun x hx => hsub x (by simp [hx])
    rw [visitUsers]
    simp only [List.foldl_cons]
    by_cases hv : st.visited n = true
    · rw [if_pos hv]
      exact ih st hsub' h
    · rw [if_neg hv]
      set st2 : TopoState := { st with indeg := upd st.indeg n (st.indeg n - 1) } with hst2
      have hinv2 : TopoInv passes st2 := by
        refine ⟨h.graph_sub, h.queue_mem, h.queue_unvisited, ?_, h.queue_nodup,
          h.sorted_nodup, h.sorted_iff⟩
        intro q hq
        by_cases hqn : q = n
        · subst hqn
          have := h.queue_indeg q hq
          simp only [hst2, upd_same]
          omega
        · simp only [hst2]
          rw [upd_other st.indeg n q _ hqn]
          exact h.queue_indeg q hq
      by_cases hz : st2.indeg n = 0
      · rw [if_pos hz]
        have hnq : n ∉ st.queue := by
          intro hmem
          have := h.queue_indeg n hmem
          have h2 : st2.indeg n = st.indeg n - 1 := by
            simp only [hst2, upd_same]
          omega
        refine ih _ hsub' ⟨hinv2.graph_sub, ?_, ?_, ?_, ?_, hinv2.sorted_nodup,
          hinv2.sorted_iff⟩
        · intro q hq
          rcases List.mem_append.1 hq with hq | hq
          · exact hinv2.queue_mem q hq
          · simp at hq
            exact hq ▸ hn
        · intro q hq
          rcases List.mem_append.1 hq with hq | hq
          · exact hinv2.queue_unvisited q hq
          · simp at hq
            subst hq
            exact Bool.not_eq_true _ ▸ (by simpa using hv)
        · intro q hq
          rcases List.mem_append.1 hq with hq | hq
          · exact hinv2.queue_indeg q hq
          · simp at hq
            subst hq
            exact le_of_eq hz
        · rw [List.nodup_append]
          exact ⟨hinv2.queue_nodup, List.nodup_singleton n,
            fun q hq hq' => hnq ((List.mem_singleton.1 hq') ▸ hq)⟩
      · rw [if_neg hz]
        exact ih st2 hsub' hinv2


theorem drainStep_inv (passes : List Pass) (st : TopoState) (p : Pass)
    (rest : List Pass) (hq : st.queue = p :: rest) (h : TopoInv passes st) :
    TopoInv passes (drainStep st p rest) := by
  have hp : p ∈ passes := h.queue_mem p (by rw [hq]; simp)
  have hpu : st.visited p = false := h.queue_unvisited p (by rw [hq]; simp)
  have hrest : rest.Nodup ∧ p ∉ rest := by
    have := h.queue_nodup
    rw [hq] at this
    exact ⟨this.of_cons, (List.nodup_cons.1 this).1⟩
  have hps : p ∉ st.sorted := fun hmem => by
    have := (h.sorted_iff p).1 hmem
    rw [hpu] at this
    exact absurd this.1 (by simp)
  rw [drainStep]
  refine visitUsers_inv passes _ _ (fun n hn => h.graph_sub p n hn) ?_
  refine ⟨h.graph_sub, ?_, ?_, ?_, hrest.1, ?_, ?_⟩
  · intro q hqq
    exact h.queue_mem q (by rw [hq]; simp [hqq])
  · intro q hqq
    have hqp : q ≠ p := fun he => hrest.2 (he ▸ hqq)
    show upd st.visited p true q = false
    rw [upd_other st.visited p q true hqp]
    exact h.queue_unvisited q (by rw [hq]; simp [hqq])
  · intro q hqq
    exact h.queue_indeg q (by rw [hq]; simp [hqq])
  · rw [List.nodup_append]
    exact ⟨h.sorted_nodup, List.nodup_singleton p,
      fun q hqs hqp => hps ((List.mem_singleton.1 hqp) ▸ hqs)⟩
  · intro q
    constructor
    · intro hmem
      rcases List.mem_append.1 hmem with hm | hm
      · obtain ⟨hv, hin⟩ := (h.sorted_iff q).1 hm
        refine ⟨?_, hin⟩
        show upd st.visited p true q = true
        by_cases hqp : q = p
        · subst hqp; rw [upd_same]
        · rw [upd_other st.visited p q true hqp]; exact hv
      · have hqp : q = p := List.mem_singleton.1 hm
        subst hqp
        exact ⟨upd_same st.visited q true, hp⟩
    · rintro ⟨hv, hin⟩
      by_cases hqp : q = p
      · subst hqp; simp
      · replace hv : upd st.visited p true q = true := hv
        rw [upd_other st.visited p q true hqp] at hv
        exact List.mem_append.2 (Or.inl ((h.sorted_iff q).2 ⟨hv, hin⟩))

theorem drainStep_visited (st : TopoState) (p : Pass) (rest : List Pass) :
    (drainStep st p rest).visited = upd st.visited p true := by
  rw [drainStep]
  exact (visitUsers_fields _ _).2.1

theorem drainStep_sorted (st : TopoState) (p : Pass) (rest : List Pass) :
    (drainStep st p rest).sorted = st.sorted ++ [p] := by
  rw [drainStep]
  exact (visitUsers_fields _ _).2.2

/-- Number of passes not yet visited. -/
def ucount (passes : List Pass) (st : TopoState) : Nat :=
  (passes.filter fun q => !st.visited q).length

theorem filter_upd_lt : ∀ (l : List Pass) (v : Pass → Bool) (p : Pass),
    p ∈ l → l.Nodup → v p = false →
    (l.filter fun q => !(upd v p true q)).length <
      (l.filter fun q => !v q).length := by
  intro l
  induction l with
  | nil => intro v p hp; simp at hp
  | cons a as ih =>
    intro v p hp hnd hv
    by_cases hap : a = p
    · subst hap
      have hnotin : a ∉ as := (List.nodup_cons.1 hnd).1
      have hcong : as.filter (fun q => !(upd v a true q)) = as.filter (fun q => !v q) :=
        List.filter_congr fun x hx => by
          rw [upd_other v a x true (fun he => hnotin (he ▸ hx))]
      rw [List.filter_cons, List.filter_cons]
      simp only [upd_same, hv, Bool.not_true, Bool.not_false, if_true,
        Bool.false_eq_true, if_false, hcong]
      simp
    · have hpas : p ∈ as := by
        rcases List.mem_cons.1 hp with h | h
        · exact absurd h.symm hap
        · exact h
      have hlt := ih v p hpas (List.nodup_cons.1 hnd).2 hv
      rw [List.filter_cons, List.filter_cons]
      rw [upd_other v p a true hap]
      by_cases hva : (!v a) = true
      · simp only [hva, if_true, List.length_cons]
        omega
      · simp only [hva, Bool.false_eq_true, if_false]
        exact hlt


theorem drain_spec (passes : List Pass) (hnd : passes.Nodup) :
    ∀ (fuel : Nat) (st : TopoState), TopoInv passes st →
      (st.queue = [] → ∀ p ∈ passes, st.visited p = true) →
      ucount passes st ≤ fuel →
      TopoInv passes (drain passes fuel st) ∧
      (∀ p ∈ passes, (drain passes fuel st).visited p = true) := by
  intro fuel
  induction fuel with
  | zero =>
    intro st hinv hpost hfc
    have hall : ∀ p ∈ passes, st.visited p = true := by
      intro p hp
      by_contra hc
      have hb : (!st.visited p) = true := by
        simp [Bool.not_eq_true] at hc ⊢
        exact hc
      have hmem : p ∈ passes.filter (fun q => !st.visited q) :=
        List.mem_filter.2 ⟨hp, hb⟩
      have hpos : 0 < ucount passes st := by
        rw [ucount, List.length_pos]
        exact fun he => by rw [he] at hmem; cases hmem
      omega
    exact ⟨hinv, hall⟩
  | succ fuel ih =>
    intro st hinv hpost hfc
    cases hq : st.queue with
    | nil =>
      have hdr : drain passes (fuel + 1) st = st := by
        simp only [drain, hq]
      rw [hdr]
      exact ⟨hinv, hpost hq⟩
    | cons p rest =>
      have hpv : st.visited p = false := hinv.queue_unvisited p (by rw [hq]; simp)
      have hpm : p ∈ passes := hinv.queue_mem p (by rw [hq]; simp)
      have hinv1 := drainStep_inv passes st p rest hq hinv
      have hinv2 := break_cycles_inv passes (drainStep st p rest) hinv1
      have hpost2 := break_cycles_post passes (drainStep st p rest)
      have hcount : ucount passes (break_cycles passes (drainStep st p rest))
          < ucount passes st := by
        have h1 : (break_cycles passes (drainStep st p rest)).visited
            = (drainStep st p rest).visited :=
          (break_cycles_fields passes (drainStep st p rest)).2.1
        have h2 : (drainStep st p rest).visited = upd st.visited p true :=
          drainStep_visited st p rest
        rw [ucount, ucount, h1, h2]
        exact filter_upd_lt passes st.visited p hpm hnd hpv
      have hdr : drain passes (fuel + 1) st
          = drain passes fuel (break_cycles passes (drainStep st p rest)) := by
        simp only [drain, hq]
      rw [hdr]
      exact ih (break_cycles passes (drainStep st p rest)) hinv2 hpost2 (by omega)


theorem addEdgesFor_cons (c : Constraint) (cs : List Constraint)
    (a b : Pass) (st : TopoState) :
    addEdgesFor (c :: cs) a b st =
      if c a b then addEdgesFor cs a b st
      else addEdgesFor cs a b
        { st with graph := upd st.graph b (st.graph b ++ [a]),
                  indeg := upd st.indeg a (st.indeg a + 1) } := by
  rw [addEdgesFor, addEdgesFor, addEdgesFor, List.foldl_cons]
  by_cases hc : c a b = true
  · rw [if_pos hc, if_pos hc]
  · rw [if_neg hc, if_neg hc]

theorem addEdgesFor_fields (a b : Pass) : ∀ (cs : List Constraint) (st : TopoState),
    (addEdgesFor cs a b st).queue = st.queue ∧
    (addEdgesFor cs a b st).visited = st.visited ∧
    (addEdgesFor cs a b st).sorted = st.sorted ∧
    (∀ x, x ≠ a → (addEdgesFor cs a b st).indeg x = st.indeg x) ∧
    (∀ p n, n ∈ (addEdgesFor cs a b st).graph p → n ∈ st.graph p ∨ n = a) := by
  intro cs
  induction cs with
  | nil =>
    intro st
    exact ⟨rfl, rfl, rfl, fun _ _ => rfl, fun _ _ h => Or.inl h⟩
  | cons c cs ih =>
    intro st
    rw [addEdgesFor_cons]
    by_cases hc : c a b = true
    · rw [if_pos hc]
      exact ih st
    · rw [if_neg hc]
      obtain ⟨h1, h2, h3, h4, h5⟩ := ih
        { st with graph := upd st.graph b (st.graph b ++ [a]),
                  indeg := upd st.indeg a (st.indeg a + 1) }
      refine ⟨h1, h2, h3, ?_, ?_⟩
      · intro x hx
        rw [h4 x hx]
        show upd st.indeg a (st.indeg a + 1) x = st.indeg x
        rw [upd_other st.indeg a x _ hx]
      · intro p n hn
        rcases h5 p n hn with h | h
        · have h2 : n ∈ upd st.graph b (st.graph b ++ [a]) p := h
          by_cases hpb : p = b
          · subst hpb
            rw [upd_same] at h2
            rcases List.mem_append.1 h2 with h3 | h3
            · exact Or.inl h3
            · exact Or.inr (List.mem_singleton.1 h3)
          · rw [upd_other st.graph b p _ hpb] at h2
            exact Or.inl h2
        · exact Or.inr h

theorem innerLoop_fields (cs : List Constraint) (a : Pass) :
    ∀ (l : List Pass) (st : TopoState),
    ((l.foldl (fun st b => if a = b then st else addEdgesFor cs a b st) st).queue
      = st.queue) ∧
    ((l.foldl (fun st b => if a = b then st else addEdgesFor cs a b st) st).visited
      = st.visited) ∧
    ((l.foldl (fun st b => if a = b then st else addEdgesFor cs a b st) st).sorted
      = st.sorted) ∧
    (∀ x, x ≠ a →
      (l.foldl (fun st b => if a = b then st else addEdgesFor cs a b st) st).indeg x
        = st.indeg x) ∧
    (∀ p n,
      n ∈ (l.foldl (fun st b => if a = b then st else addEdgesFor cs a b st) st).graph p
        → n ∈ st.graph p ∨ n = a) := by
  intro l
  induction l with
  | nil =>
    intro st
    exact ⟨rfl, rfl, rfl, fun _ _ => rfl, fun _ _ h => Or.inl h⟩
  | cons b bs ih =>
    intro st
    simp only [List.foldl_cons]
    by_cases hab : a = b
    · rw [if_pos hab]
      exact ih st
    · rw [if_neg hab]
      obtain ⟨h1, h2, h3, h4, h5⟩ := ih (addEdgesFor cs a b st)
      obtain ⟨g1, g2, g3, g4, g5⟩ := addEdgesFor_fields a b cs st
      refine ⟨h1.trans g1, h2.trans g2, h3.trans g3, ?_, ?_⟩
      · intro x hx
        rw [h4 x hx, g4 x hx]
      · intro p n hn
        rcases h5 p n hn with h | h
        · exact g5 p n h
        · exact Or.inr h


theorem build_go (passes : List Pass) (cs : List Constraint) :
    ∀ (l : List Pass) (st : TopoState),
    l.Nodup → (∀ x ∈ l, x ∈ passes) →
    (∀ p n, n ∈ st.graph p → n ∈ passes) →
    st.visited = (fun _ => false) →
    st.sorted = [] →
    (∀ q ∈ st.queue, q ∈ passes) →
    st.queue.Nodup →
    (∀ q ∈ st.queue, st.indeg q = 0) →
    (∀ q ∈ st.queue, q ∉ l) →
    ((∀ p n, n ∈ (l.foldl (buildOne passes cs) st).graph p → n ∈ passes) ∧
     (l.foldl (buildOne passes cs) st).visited = (fun _ => false) ∧
     (l.foldl (buildOne passes cs) st).sorted = [] ∧
     (∀ q ∈ (l.foldl (buildOne passes cs) st).queue, q ∈ passes) ∧
     (l.foldl (buildOne passes cs) st).queue.Nodup ∧
     (∀ q ∈ (l.foldl (buildOne passes cs) st).queue,
        (l.foldl (buildOne passes cs) st).indeg q = 0)) := by
  intro l
  induction l with
  | nil =>
    intro st _ _ hg hv hs hqm hqn hqi _
    exact ⟨hg, hv, hs, hqm, hqn, fun q hq => hqi q hq⟩
  | cons a rest ih =>
    intro st hnd hsub hg hv hs hqm hqn hqi hdisj
    have ha : a ∈ passes := hsub a (by simp)
    have hanotin : a ∉ rest := (List.nodup_cons.1 hnd).1
    rw [List.foldl_cons]
    obtain ⟨m1, m2, m3, m4, m5⟩ := innerLoop_fields cs a passes st
    have hbo : ∀ st2 : TopoState, st2 = buildOne passes cs st a →
        (st2.graph = (passes.foldl
            (fun st b => if a = b then st else addEdgesFor cs a b st) st).graph ∧
         st2.visited = st.visited ∧ st2.sorted = st.sorted ∧
         st2.indeg = (passes.foldl
            (fun st b => if a = b then st else addEdgesFor cs a b st) st).indeg ∧
         ((st2.queue = st.queue ∧ st2.indeg a ≠ 0) ∨
          (st2.queue = st.queue ++ [a] ∧ st2.indeg a = 0))) := by
      intro st2 h2
      rw [buildOne] at h2
      by_cases hseed : (passes.foldl
          (fun st b => if a = b then st else addEdgesFor cs a b st) st).indeg a = 0
      · rw [if_pos hseed] at h2
        subst h2
        exact ⟨rfl, m2, m3, rfl, Or.inr ⟨by rw [m1], hseed⟩⟩
      · rw [if_neg hseed] at h2
        subst h2
        exact ⟨rfl, m2, m3, rfl, Or.inl ⟨m1, hseed⟩⟩
    obtain ⟨b1, b2, b3, b4, b5⟩ := hbo (buildOne passes cs st a) rfl
    have hindeg_pres : ∀ q, q ≠ a → (buildOne passes cs st a).indeg q = st.indeg q := by
      intro q hq
      rw [b4, m4 q hq]
    have hgraph_sub : ∀ p n, n ∈ (buildOne passes cs st a).graph p → n ∈ passes := by
      intro p n hn
      rw [b1] at hn
      rcases m5 p n hn with h | h
      · exact hg p n h
      · exact h ▸ ha
    have hseedq : ∀ q ∈ (buildOne passes cs st a).queue, q ∈ st.queue ∨ q = a := by
      intro q hq
      rcases b5 with ⟨h, -⟩ | ⟨h, -⟩
      · rw [h] at hq
        exact Or.inl hq
      · rw [h] at hq
        rcases List.mem_append.1 hq with h2 | h2
        · exact Or.inl h2
        · exact Or.inr (List.mem_singleton.1 h2)
    refine ih (buildOne passes cs st a) (List.nodup_cons.1 hnd).2
      (fun x hx => hsub x (by simp [hx])) hgraph_sub (b2.trans hv) (b3.trans hs)
      ?_ ?_ ?_ ?_
    · intro q hq
      rcases hseedq q hq with h | h
      · exact hqm q h
      · exact h ▸ ha
    · rcases b5 with ⟨h, -⟩ | ⟨h, -⟩
      · rw [h]; exact hqn
      · rw [h, List.nodup_append]
        exact ⟨hqn, List.nodup_singleton a,
          fun q hq hq2 => hdisj q hq ((List.mem_singleton.1 hq2) ▸ (by simp))⟩
    · intro q hq
      rcases hseedq q hq with h | h
      · have hqa : q ≠ a := fun he => hdisj q h (he ▸ (by simp))
        rw [hindeg_pres q hqa]
        exact hqi q h
      · subst h
        rcases b5 with ⟨h2, -⟩ | ⟨-, h2⟩
        · exact absurd (h2 ▸ hq) (fun hm => hdisj q hm (by simp))
        · exact h2
    · intro q hq
      rcases hseedq q hq with h | h
      · exact fun hm => hdisj q h (by simp [hm])
      · exact fun hm => hanotin (h ▸ hm)


theorem buildGraph_inv (passes : List Pass) (cs : List Constraint)
    (hnd : passes.Nodup) : TopoInv passes (buildGraph passes cs) := by
  rw [buildGraph]
  obtain ⟨g1, g2, g3, g4, g5, g6⟩ := build_go passes cs passes
    { graph := fun _ => []
      indeg := fun _ => 0
      queue := []
      visited := fun _ => false
      sorted := []
      circular := false }
    hnd (fun x hx => hx) (fun p n hn => absurd hn (List.not_mem_nil n))
    rfl rfl (fun q hq => absurd hq (List.not_mem_nil q)) List.nodup_nil
    (fun q hq => absurd hq (List.not_mem_nil q))
    (fun q hq => absurd hq (List.not_mem_nil q))
  refine ⟨g1, g4, ?_, ?_, g5, ?_, ?_⟩
  · intro q hq
    rw [g2]
  · intro q hq
    rw [g6 q hq]
  · rw [g3]
    exact List.nodup_nil
  · intro p
    rw [g3, g2]
    simp

/-- C3 as amended.  For every list of pairwise-distinct passes and every
list of constraints — contradictory ones included — `topological_sort_passes`
terminates and returns a total order over the input passes: its first
component is a permutation of the input list.  (The cycle-breaking
heuristic does *not* always violate the fewest possible ordering edges;
see the counterexample.) -/
theorem topological_sort_passes_perm (passes : List Pass)
    (cs : List Constraint) (hnd : passes.Nodup) :
    (topological_sort_passes passes cs).1.Perm passes := by
  rw [topological_sort_passes]
  by_cases hc : cs.length = 0
  · rw [if_pos hc]
  · rw [if_neg hc]
    simp only
    have hinv0 := buildGraph_inv passes cs hnd
    have hinv1 := break_cycles_inv passes (buildGraph passes cs) hinv0
    have hpost1 := break_cycles_post passes (buildGraph passes cs)
    have hfuel : ucount passes (break_cycles passes (buildGraph passes cs))
        ≤ passes.length + 1 := by
      have h := List.length_filter_le
        (fun q => !(break_cycles passes (buildGraph passes cs)).visited q) passes
      rw [ucount]
      omega
    obtain ⟨hinvf, hallf⟩ := drain_spec passes hnd (passes.length + 1)
      (break_cycles passes (buildGraph passes cs)) hinv1 hpost1 hfuel
    rw [List.perm_ext_iff_of_nodup hinvf.sorted_nodup hnd]
    intro q
    rw [hinvf.sorted_iff q]
    exact ⟨fun h => h.2, fun h => ⟨hallf q h, h⟩⟩

/-- Witness for the amended C3 at the counterexample input: the returned
order is a permutation of the four input passes. -/
theorem topological_sort_passes_perm_witness :
    (topological_sort_passes [0, 1, 2, 3] csC3).1.Perm [0, 1, 2, 3] :=
  topological_sort_passes_perm [0, 1, 2, 3] csC3 (by decide)


end PassManagerPy
